import Mathlib

/-!
Shallow embedding of `src/range_lock.hh` (struct `range_lock`), a byte-range
locking utility that partitions a linear resource into fixed-size regions and
locks the regions covered by a request in ascending id order.

Modelling conventions:
* `uint64_t` values are `Nat` with arithmetic reduced `% W` (`W = 2^64`)
  exactly where the C++ computation can wrap.
* The `std::unordered_map<uint64_t, std::unique_ptr<region>>` is an
  association list `Table`; `insert` appends, `erase` filters the key out,
  in-place mutation of a mapped region is `updateRegion`.
* A region's `std::shared_timed_mutex` is modelled by the pair
  `excl : Bool` (exclusively held) and `sharedCount : Nat` (shared holders).
  `lock` succeeds when the mutex is free; in this sequential model a blocking
  acquisition that would wait is the outcome `Err.blocked`.
* A failed `assert` aborts the process; it is the outcome `Err.invalid`
  (for `validate_parameters`) or `Err.assertFail` (for the region-table
  asserts in `get_locked_region` / `unlock_region`).
* The callback iteration `for_each_region`/`do_for_each_region` enumerates a
  deterministic list of region ids; it is embedded as the list `region_ids`
  consumed left to right, early stop included, by each operation.
-/

namespace RangeLock

/-- Modulus of `uint64_t` arithmetic. -/
def W : Nat := 2 ^ 64

/-- `struct region`: refcount plus the state of its `shared_timed_mutex`. -/
structure Region where
  refcount : Nat
  excl : Bool
  sharedCount : Nat
deriving DecidableEq, Repr

/-- `std::unordered_map<uint64_t, std::unique_ptr<region>> _regions`. -/
abbrev Table := List (Nat × Region)

/-- `_regions.find(id)`. -/
def findRegion : Table → Nat → Option Region
  | [], _ => none
  | (i, r) :: rest, id => if i = id then some r else findRegion rest id

/-- In-place mutation of the region mapped to `id`. -/
def updateRegion (t : Table) (id : Nat) (r : Region) : Table :=
  t.map (fun p => if p.1 = id then (id, r) else p)

/-- `_regions.erase(it)`. -/
def eraseRegion (t : Table) (id : Nat) : Table :=
  t.filter (fun p => p.1 != id)

/-- `get_and_lock_region`: create the entry on first reference (the code
inserts a fresh region with refcount 0 and then increments), increment the
refcount, return the mutated table and the region. -/
def get_and_lock_region (t : Table) (id : Nat) : Table × Region :=
  match findRegion t id with
  | some r =>
      let r2 := { r with refcount := r.refcount + 1 }
      (updateRegion t id r2, r2)
  | none =>
      let r2 : Region := { refcount := 1, excl := false, sharedCount := 0 }
      (t ++ [(id, r2)], r2)

/-- `get_locked_region`: asserts the entry exists with positive refcount;
`none` is the failed assert (process abort). -/
def get_locked_region (t : Table) (id : Nat) : Option Region :=
  match findRegion t id with
  | none => none
  | some r => if r.refcount = 0 then none else some r

/-- `unlock_region`: asserts the entry exists, decrements the refcount and
erases the entry when it reaches zero. -/
def unlock_region (t : Table) (id : Nat) : Option Table :=
  match findRegion t id with
  | none => none
  | some r =>
      if r.refcount - 1 = 0 then some (eraseRegion t id)
      else some (updateRegion t id { r with refcount := r.refcount - 1 })

/-- `get_region_id`: `offset / _region_size`. -/
def get_region_id (rs offset : Nat) : Nat := offset / rs

/-- Bitwise complement `~x` on `uint64_t`. -/
def u64compl (x : Nat) : Nat := (W - 1) ^^^ x

/-- `offset & ~(_region_size - 1)` from `for_each_region`. -/
def aligned_down_offset (rs offset : Nat) : Nat :=
  offset &&& u64compl (rs - 1)

/-- `(length + _region_size - 1) & ~(_region_size - 1)` from
`for_each_region`; the addition wraps in `uint64_t`. -/
def aligned_up_length (rs length : Nat) : Nat :=
  ((length + (rs - 1)) % W) &&& u64compl (rs - 1)

/-- The list of region ids enumerated by
`for_each_region(offset, length, f)`: `do_for_each_region` walks
`regions = aligned_up_length / _region_size` indices and passes
`get_region_id(aligned_down_offset + i * _region_size)` to the callback. -/
def region_ids (rs offset length : Nat) : List Nat :=
  (List.range (aligned_up_length rs length / rs)).map
    (fun i => get_region_id rs ((aligned_down_offset rs offset + i * rs) % W))

/-- `validate_parameters`: `assert(length > 0)` and
`assert(offset < offset + length)` with the sum wrapping in `uint64_t`. -/
def validate_parameters (offset length : Nat) : Bool :=
  decide (0 < length) && decide (offset < (offset + length) % W)

/-- Outcomes of an operation that does not return normally in the model:
a failed parameter assert, a failed region-table assert, or a blocking
mutex acquisition that would wait (sequential model). -/
inductive Err where
  | invalid
  | assertFail
  | blocked
deriving DecidableEq, Repr

/-- The loop body of `lock`: `get_and_lock_region(id)` then a blocking
`r.mutex.lock()`, in ascending id order. -/
def lock_regions (t : Table) : List Nat → Except Err Table
  | [] => .ok t
  | id :: rest =>
      let p := get_and_lock_region t id
      if p.2.excl = false ∧ p.2.sharedCount = 0 then
        lock_regions (updateRegion p.1 id { p.2 with excl := true }) rest
      else
        .error .blocked

/-- `lock(offset, length)`. -/
def lock (rs : Nat) (t : Table) (offset length : Nat) : Except Err Table :=
  if validate_parameters offset length then
    lock_regions t (region_ids rs offset length)
  else .error .invalid

/-- The loop body of `unlock`: `get_locked_region(id)`, `mutex.unlock()`,
`unlock_region(id)`, in ascending id order. -/
def unlock_regions (t : Table) : List Nat → Except Err Table
  | [] => .ok t
  | id :: rest =>
      match get_locked_region t id with
      | none => .error .assertFail
      | some r =>
          match unlock_region (updateRegion t id { r with excl := false }) id with
          | none => .error .assertFail
          | some t2 => unlock_regions t2 rest

/-- `unlock(offset, length)`. -/
def unlock (rs : Nat) (t : Table) (offset length : Nat) : Except Err Table :=
  if validate_parameters offset length then
    unlock_regions t (region_ids rs offset length)
  else .error .invalid

/-- The iteration of `generic_try_lock` with the `try_lock_f` of `try_lock`:
each step runs `get_and_lock_region(id)` then `r.mutex.try_lock()`; on
success the id is appended to `locked_region_ids`, on failure the walk stops
(the failed region's refcount increment is NOT undone, mirroring the code).
Returns `(failed_to_lock_region, table, locked_region_ids)`. -/
def try_lock_walk (t : Table) (acquired : List Nat) :
    List Nat → Bool × Table × List Nat
  | [] => (false, t, acquired)
  | id :: rest =>
      let p := get_and_lock_region t id
      if p.2.excl = false ∧ p.2.sharedCount = 0 then
        try_lock_walk (updateRegion p.1 id { p.2 with excl := true })
          (acquired ++ [id]) rest
      else
        (true, p.1, acquired)

/-- The rollback loop of `generic_try_lock` with the `unlock_f` of
`try_lock`: for each collected id, `get_locked_region`, `mutex.unlock()`,
`unlock_region`. -/
def try_lock_rollback (t : Table) : List Nat → Except Err Table
  | [] => .ok t
  | id :: rest =>
      match get_locked_region t id with
      | none => .error .assertFail
      | some r =>
          match unlock_region (updateRegion t id { r with excl := false }) id with
          | none => .error .assertFail
          | some t2 => try_lock_rollback t2 rest

/-- `try_lock(offset, length)` via `generic_try_lock`: walk the covered ids
try-locking each; if `failed_to_lock_region` was set, roll back the
collected `locked_region_ids` and return `false`, else return `true`. -/
def try_lock (rs : Nat) (t : Table) (offset length : Nat) :
    Except Err (Bool × Table) :=
  if validate_parameters offset length then
    match try_lock_walk t [] (region_ids rs offset length) with
    | (true, t1, acquired) =>
        (try_lock_rollback t1 acquired).map (fun t2 => (false, t2))
    | (false, t1, _) => .ok (true, t1)
  else .error .invalid

/-- The loop body of `lock_shared`: `get_and_lock_region(id)` then a blocking
`r.mutex.lock_shared()` (blocks only while exclusively held). -/
def lock_shared_regions (t : Table) : List Nat → Except Err Table
  | [] => .ok t
  | id :: rest =>
      let p := get_and_lock_region t id
      if p.2.excl = false then
        lock_shared_regions
          (updateRegion p.1 id { p.2 with sharedCount := p.2.sharedCount + 1 }) rest
      else
        .error .blocked

/-- `lock_shared(offset, length)`. -/
def lock_shared (rs : Nat) (t : Table) (offset length : Nat) : Except Err Table :=
  if validate_parameters offset length then
    lock_shared_regions t (region_ids rs offset length)
  else .error .invalid

/-- The loop body of `unlock_shared`: `get_locked_region(id)`,
`mutex.unlock_shared()`, `unlock_region(id)`. -/
def unlock_shared_regions (t : Table) : List Nat → Except Err Table
  | [] => .ok t
  | id :: rest =>
      match get_locked_region t id with
      | none => .error .assertFail
      | some r =>
          match unlock_region
              (updateRegion t id { r with sharedCount := r.sharedCount - 1 }) id with
          | none => .error .assertFail
          | some t2 => unlock_shared_regions t2 rest

/-- `unlock_shared(offset, length)`. -/
def unlock_shared (rs : Nat) (t : Table) (offset length : Nat) : Except Err Table :=
  if validate_parameters offset length then
    unlock_shared_regions t (region_ids rs offset length)
  else .error .invalid

/-- The iteration of `generic_try_lock` with the `try_lock_f` of
`try_lock_shared`: `get_and_lock_region(id)` then `r.mutex.try_lock_shared()`
(succeeds unless exclusively held). -/
def try_lock_shared_walk (t : Table) (acquired : List Nat) :
    List Nat → Bool × Table × List Nat
  | [] => (false, t, acquired)
  | id :: rest =>
      let p := get_and_lock_region t id
      if p.2.excl = false then
        try_lock_shared_walk
          (updateRegion p.1 id { p.2 with sharedCount := p.2.sharedCount + 1 })
          (acquired ++ [id]) rest
      else
        (true, p.1, acquired)

/-- The rollback loop of `generic_try_lock` with the `unlock_f` of
`try_lock_shared`. -/
def try_lock_shared_rollback (t : Table) : List Nat → Except Err Table
  | [] => .ok t
  | id :: rest =>
      match get_locked_region t id with
      | none => .error .assertFail
      | some r =>
          match unlock_region
              (updateRegion t id { r with sharedCount := r.sharedCount - 1 }) id with
          | none => .error .assertFail
          | some t2 => try_lock_shared_rollback t2 rest

/-- `try_lock_shared(offset, length)` via `generic_try_lock`, same shape as
`try_lock` with the shared-mode mutex operations. -/
def try_lock_shared (rs : Nat) (t : Table) (offset length : Nat) :
    Except Err (Bool × Table) :=
  if validate_parameters offset length then
    match try_lock_shared_walk t [] (region_ids rs offset length) with
    | (true, t1, acquired) =>
        (try_lock_shared_rollback t1 acquired).map (fun t2 => (false, t2))
    | (false, t1, _) => .ok (true, t1)
  else .error .invalid

/-- `with_lock(offset, length, func)`, the literal sequence
`lock(offset, length); func(); unlock(offset, length);` under C++ exception
semantics: when `func` terminates abnormally (`Except.error`), control leaves
`with_lock` without executing the `unlock` line, and the failure propagates
to the caller together with the table as `lock` left it. -/
def with_lock (rs : Nat) (t : Table) (offset length : Nat)
    (func : Except Unit Unit) : Except Err (Except Unit Unit × Table) :=
  match lock rs t offset length with
  | .error e => .error e
  | .ok t1 =>
      match func with
      | .error u => .ok (.error u, t1)
      | .ok _ =>
          match unlock rs t1 offset length with
          | .error e => .error e
          | .ok t2 => .ok (.ok (), t2)

/-- `with_lock_shared(offset, length, func)`, same shape as `with_lock`. -/
def with_lock_shared (rs : Nat) (t : Table) (offset length : Nat)
    (func : Except Unit Unit) : Except Err (Except Unit Unit × Table) :=
  match lock_shared rs t offset length with
  | .error e => .error e
  | .ok t1 =>
      match func with
      | .error u => .ok (.error u, t1)
      | .ok _ =>
          match unlock_shared rs t1 offset length with
          | .error e => .error e
          | .ok t2 => .ok (.ok (), t2)

/-- Spec-side alignment: `align_down(v)` rounds `v` down to a multiple of
`region_size`. -/
def align_down (rs v : Nat) : Nat := rs * (v / rs)

/-- Spec-side alignment: `align_up(v)` rounds `v` up to a multiple of
`region_size`. -/
def align_up (rs v : Nat) : Nat := rs * ((v + rs - 1) / rs)

/-- Modelled from the spec (§3, §8): the ids covering the widened interval
`[align_down(offset), align_up(offset+length))` — the consecutive ids from
`align_down(offset) / region_size` through
`(align_up(offset+length) - 1) / region_size`. Stated for comparison with
`region_ids`, the ids the code actually iterates. -/
def spec_region_ids (rs offset length : Nat) : List Nat :=
  List.range' (align_down rs offset / rs)
    ((align_up rs (offset + length) - align_down rs offset) / rs)

/-- The table produced by a fully successful exclusive acquisition starting
from an empty table: every covered region present with refcount 1 and its
mutex exclusively held. -/
def locked_table (rs offset length : Nat) : Table :=
  (region_ids rs offset length).map (fun i => (i, ⟨1, true, 0⟩))

/-- State of one thread engaged in a blocking `lock`/`lock_shared` call:
its request and how many of its covered regions it has acquired so far
(the code acquires them in list order, so it holds the prefix
`(region_ids ...).take acquired` and, while blocked, waits on the id at
index `acquired`). -/
structure ThreadSt where
  offset : Nat
  length : Nat
  acquired : Nat
deriving DecidableEq, Repr

/-- A request accepted by `validate_parameters` (with `uint64_t` domain
bounds on the arguments). -/
def accepted_request (offset length : Nat) : Prop :=
  offset < W ∧ length < W ∧ validate_parameters offset length = true

/-- Thread `a` waits for thread `b`: both run accepted requests, `a` is
blocked on the next id of its coverage, and that id is among the regions
`b` currently holds (the prefix `b` has already acquired). -/
def waits_for (rs : Nat) (a b : ThreadSt) : Prop :=
  accepted_request a.offset a.length ∧ accepted_request b.offset b.length ∧
  ∃ h : a.acquired < (region_ids rs a.offset a.length).length,
    (region_ids rs a.offset a.length).get ⟨a.acquired, h⟩ ∈
      (region_ids rs b.offset b.length).take b.acquired

/-- Refcount invariant of the region table: every entry present has a
positive refcount. -/
def Inv (t : Table) : Prop := ∀ p ∈ t, 0 < p.2.refcount

instance decEqExcept {e a : Type} [DecidableEq e] [DecidableEq a] :
    DecidableEq (Except e a) := fun x y =>
  match x, y with
  | .ok u, .ok v =>
      if h : u = v then .isTrue (by rw [h])
      else .isFalse (by intro hc; cases hc; exact h rfl)
  | .error u, .error v =>
      if h : u = v then .isTrue (by rw [h])
      else .isFalse (by intro hc; cases hc; exact h rfl)
  | .ok _, .error _ => .isFalse (by intro hc; cases hc)
  | .error _, .ok _ => .isFalse (by intro hc; cases hc)

/-! ### Characterization of the alignment arithmetic -/

theorem land_mask_eq (k x : Nat) (hk : k ≤ 64) (hx : x < 2 ^ 64) :
    x &&& u64compl (2 ^ k - 1) = 2 ^ k * (x / 2 ^ k) := by
  apply Nat.eq_of_testBit_eq
  intro i
  rw [show (2:Nat) ^ k * (x / 2 ^ k) = (x >>> k) <<< k by
    rw [Nat.shiftLeft_eq, Nat.shiftRight_eq_div_pow]; ring]
  rw [Nat.testBit_land, u64compl, W, Nat.testBit_xor, Nat.testBit_two_pow_sub_one,
    Nat.testBit_two_pow_sub_one, Nat.testBit_shiftLeft, Nat.testBit_shiftRight]
  by_cases hik : i < k
  · have h64 : i < 64 := lt_of_lt_of_le hik hk
    simp [hik, h64, Nat.not_le.mpr hik]
  · by_cases hi64 : i < 64
    · have : k + (i - k) = i := by omega
      simp [hik, hi64, Nat.le_of_not_lt hik, this]
    · have hxi : x.testBit i = false :=
        Nat.testBit_lt_two_pow
          (lt_of_lt_of_le hx (Nat.pow_le_pow_right (by norm_num) (Nat.le_of_not_lt hi64)))
      have : k + (i - k) = i := by omega
      simp [hik, hi64, Nat.le_of_not_lt hik, this, hxi]

theorem region_ids_eq (k o l : Nat) (hk : k ≤ 64) (ho : o < W) (hl : l < W)
    (hol : o + l ≤ W) :
    region_ids (2 ^ k) o l =
      List.range' (o / 2 ^ k) (aligned_up_length (2 ^ k) l / 2 ^ k) := by
  have hrs : 0 < 2 ^ k := Nat.two_pow_pos k
  have hrsW : 2 ^ k ≤ W := Nat.pow_le_pow_right (by norm_num) hk
  have hWpos : 0 < W := Nat.two_pow_pos 64
  have hado : aligned_down_offset (2 ^ k) o = 2 ^ k * (o / 2 ^ k) :=
    land_mask_eq k o hk ho
  have hal : aligned_up_length (2 ^ k) l = 2 ^ k * ((l + (2 ^ k - 1)) % W / 2 ^ k) :=
    land_mask_eq k _ hk (Nat.mod_lt _ hWpos)
  apply List.ext_getElem
  · simp [region_ids]
  · intro i h1 h2
    simp only [region_ids, List.getElem_map, List.getElem_range, List.getElem_range']
    have him : i < aligned_up_length (2 ^ k) l / 2 ^ k := by
      simpa [region_ids] using h1
    by_cases hB : l + (2 ^ k - 1) < W
    · have hmod : (l + (2 ^ k - 1)) % W = l + (2 ^ k - 1) := Nat.mod_eq_of_lt hB
      have halle : aligned_up_length (2 ^ k) l ≤ l + (2 ^ k - 1) := by
        rw [hal, hmod, mul_comm]
        exact Nat.div_mul_le_self _ _
      have hdvd : 2 ^ k * (aligned_up_length (2 ^ k) l / 2 ^ k)
          = aligned_up_length (2 ^ k) l := by
        conv_rhs => rw [hal]
        rw [hal, Nat.mul_div_cancel_left _ hrs]
      have hib : (i + 1) * 2 ^ k ≤ aligned_up_length (2 ^ k) l := by
        calc (i + 1) * 2 ^ k ≤ (aligned_up_length (2 ^ k) l / 2 ^ k) * 2 ^ k :=
              Nat.mul_le_mul_right _ him
          _ = aligned_up_length (2 ^ k) l := by rw [mul_comm]; exact hdvd
      have hadole : aligned_down_offset (2 ^ k) o ≤ o := by
        rw [hado, mul_comm]
        exact Nat.div_mul_le_self _ _
      have hbound : aligned_down_offset (2 ^ k) o + i * 2 ^ k < W := by
        have hx : i * 2 ^ k + 2 ^ k ≤ aligned_up_length (2 ^ k) l := by
          calc i * 2 ^ k + 2 ^ k = (i + 1) * 2 ^ k := by ring
            _ ≤ _ := hib
        omega
      rw [Nat.mod_eq_of_lt hbound, hado, get_region_id]
      rw [show 2 ^ k * (o / 2 ^ k) + i * 2 ^ k = 2 ^ k * (o / 2 ^ k + i) by ring]
      rw [Nat.mul_div_cancel_left _ hrs]
      ring
    · exfalso
      have hx2 : l + (2 ^ k - 1) < 2 * W := by omega
      have hxW : W ≤ l + (2 ^ k - 1) := Nat.le_of_not_lt hB
      have hmod : (l + (2 ^ k - 1)) % W = l + (2 ^ k - 1) - W := by
        rw [Nat.mod_eq_sub_mod hxW, Nat.mod_eq_of_lt (by omega)]
      have hsmall : l + (2 ^ k - 1) - W < 2 ^ k := by omega
      have : aligned_up_length (2 ^ k) l = 0 := by
        rw [hal, hmod, Nat.div_eq_of_lt hsmall, mul_zero]
      rw [this, Nat.zero_div] at him
      exact absurd him (Nat.not_lt_zero i)

theorem validate_iff (o l : Nat) (ho : o < W) (hl : l < W) :
    validate_parameters o l = true ↔ 0 < l ∧ o + l < W := by
  unfold validate_parameters
  simp only [Bool.and_eq_true, decide_eq_true_eq]
  constructor
  · rintro ⟨h1, h2⟩
    refine ⟨h1, ?_⟩
    by_contra hge
    have hlt2 : o + l < 2 * W := by omega
    have hmod : (o + l) % W = o + l - W := by
      rw [Nat.mod_eq_sub_mod (by omega), Nat.mod_eq_of_lt (by omega)]
    omega
  · rintro ⟨h1, h2⟩
    exact ⟨h1, by rw [Nat.mod_eq_of_lt h2]; omega⟩

/-! ### Claim C1 -/

/-- Claim C1 (code divergence, evaluated at the failing input): with
`region_size = 1024` the request `(offset 512, length 1024)` covers the
widened interval `[align_down(512), align_up(1536)) = [0, 2048)`, whose
consecutive region ids are `[0, 1]` (`spec_region_ids`); but the code's
iteration (`for_each_region` aligns the *length* up instead of
`offset + length`) visits only `[0]`, leaving region 1 — which holds bytes
`[1024, 1536)` of the request — unprotected. -/
theorem c1_coverage_divergence :
    region_ids 1024 512 1024 = [0] ∧ spec_region_ids 1024 512 1024 = [0, 1] := by
  constructor <;> decide

/-! ### Claim C2 -/

/-- Claim C2 (code divergence, evaluated at the failing input): with
`region_size = 1024`, from the table left by a holder of `lock(0, 1)`
(region 0 present: refcount 1, exclusively held), a failing
`try_lock(0, 1)` returns `false` but leaves region 0 with refcount 2: the
loop in `generic_try_lock` runs `get_and_lock_region` (refcount++) before
`mutex.try_lock()`, and the rollback only visits `locked_region_ids`, which
never includes the region whose try-lock failed — so that increment is
never undone and the table is not restored to its pre-call state. -/
theorem c2_try_lock_refcount_leak :
    lock 1024 [] 0 1 = .ok [(0, ⟨1, true, 0⟩)] ∧
    try_lock 1024 [(0, ⟨1, true, 0⟩)] 0 1 = .ok (false, [(0, ⟨2, true, 0⟩)]) := by
  constructor <;> decide

/-! ### Claim C3 -/

/-- Claim C3 (code divergence, evaluated at the failing input): `with_lock`
(and `with_lock_shared`) is the bare sequence `lock; func(); unlock;` — when
the supplied operation terminates abnormally the `unlock` line is never
reached, so the acquired range stays locked: here, after the operation
fails, region 0 is still held (exclusively, resp. shared) with refcount 1
instead of the table being empty. -/
theorem c3_with_lock_leaks_on_abnormal_exit :
    with_lock 1024 [] 0 1 (.error ()) = .ok (.error (), [(0, ⟨1, true, 0⟩)]) ∧
    with_lock_shared 1024 [] 0 1 (.error ())
      = .ok (.error (), [(0, ⟨1, false, 1⟩)]) := by
  constructor <;> decide

/-! ### Claim C5 -/

/-- Claim C5: for every accepted request (the hypotheses bound the
`uint64_t` arguments; acceptance needs `o + l < W`, and `o + l ≤ W` already
suffices here), the id sequence `region_ids` — the one iteration underlying
`lock`, `try_lock`, `unlock` and all shared variants alike — is strictly
ascending, duplicate-free, and each id is exactly its predecessor plus one;
being a pure function of `(region_size, offset, length)` it is
deterministic. -/
theorem c5_region_ids_ascending (k o l : Nat) (hk : k ≤ 64) (ho : o < W)
    (hl : l < W) (hol : o + l ≤ W) :
    (region_ids (2 ^ k) o l).Pairwise (· < ·) ∧
    (region_ids (2 ^ k) o l).Nodup ∧
    ∀ i (h : i + 1 < (region_ids (2 ^ k) o l).length),
      (region_ids (2 ^ k) o l).get ⟨i + 1, h⟩
        = (region_ids (2 ^ k) o l).get ⟨i, Nat.lt_of_succ_lt h⟩ + 1 := by
  rw [region_ids_eq k o l hk ho hl hol]
  refine ⟨List.pairwise_lt_range' _ _, List.nodup_range' _ _, ?_⟩
  intro i h
  simp only [List.get_eq_getElem, List.getElem_range']
  ring

/-- Witness for C5 at `region_size = 2^10`, request `(offset 0, length
2048)`: ids `[0, 1]`. -/
theorem c5_region_ids_ascending_witness :
    (region_ids (2 ^ 10) 0 2048).Nodup := by
  have h := c5_region_ids_ascending 10 0 2048 (by norm_num) (by norm_num [W])
    (by norm_num [W]) (by norm_num [W])
  exact h.2.1

/-! ### Claim C4 -/

/-- A thread engaged in a blocking acquisition holds a strict prefix of its
covered ids and waits on the id at index `acquired`; this is that waited-on
id (`0` when out of range, unused in that case). -/
def wait_key (rs : Nat) (t : ThreadSt) : Nat :=
  (region_ids rs t.offset t.length).getD t.acquired 0

theorem accepted_sum_le (o l : Nat) (h : accepted_request o l) : o + l ≤ W := by
  obtain ⟨ho, hl, hv⟩ := h
  exact le_of_lt ((validate_iff o l ho hl).mp hv).2

theorem waits_for_key_lt (k : Nat) (hk : k ≤ 64) (a b : ThreadSt)
    (hab : waits_for (2 ^ k) a b)
    (hb : b.acquired < (region_ids (2 ^ k) b.offset b.length).length) :
    wait_key (2 ^ k) a < wait_key (2 ^ k) b := by
  obtain ⟨ha, hbr, hblk, hmem⟩ := hab
  have hB := region_ids_eq k b.offset b.length hk hbr.1 hbr.2.1
    (accepted_sum_le _ _ hbr)
  have hgetB : ∀ m, (hm : m < (region_ids (2 ^ k) b.offset b.length).length) →
      (region_ids (2 ^ k) b.offset b.length)[m] = b.offset / 2 ^ k + m := by
    intro m hm
    rw [List.getElem_of_eq hB, List.getElem_range']
    ring
  rw [wait_key, wait_key, List.getD_eq_getElem?_getD, List.getD_eq_getElem?_getD,
    List.getElem?_eq_getElem hblk, List.getElem?_eq_getElem hb,
    Option.getD_some, Option.getD_some]
  rw [List.get_eq_getElem, List.mem_take_iff_getElem] at hmem
  obtain ⟨j, hj, hjx⟩ := hmem
  have hjb : j < b.acquired := lt_of_lt_of_le hj (min_le_left _ _)
  have hjlen : j < (region_ids (2 ^ k) b.offset b.length).length :=
    lt_of_lt_of_le hj (min_le_right _ _)
  rw [← hjx, hgetB j hjlen, hgetB b.acquired hb]
  omega

theorem transGen_exists_out {α : Type} {r : α → α → Prop} {a b : α}
    (h : Relation.TransGen r a b) : ∃ x, r a x := by
  induction h with
  | single hab => exact ⟨_, hab⟩
  | tail _ _ ih => exact ih

theorem waits_for_trans_key_lt (k : Nat) (hk : k ≤ 64) (a b : ThreadSt)
    (h : Relation.TransGen (waits_for (2 ^ k)) a b)
    (hb : b.acquired < (region_ids (2 ^ k) b.offset b.length).length) :
    wait_key (2 ^ k) a < wait_key (2 ^ k) b := by
  induction h with
  | single hab => exact waits_for_key_lt k hk _ _ hab hb
  | tail hxy hyz ih =>
      have hy : _ := hyz.2.2.1
      exact lt_trans (ih hy) (waits_for_key_lt k hk _ _ hyz hb)

/-- Claim C4: no cyclic wait. With every caller routed through the
coordinator, a blocked thread holds the prefix
`(region_ids rs offset length).take acquired` of its (strictly ascending)
coverage and waits on the next id; `waits_for a b` says the id `a` is
blocked on is among the regions `b` holds. For any region size `2^k`
(`k ≤ 64`) the waits-for relation admits no cycle: no thread transitively
waits on itself, because the waited-on id strictly increases along every
waits-for edge. -/
theorem c4_no_cyclic_wait (k : Nat) (hk : k ≤ 64) (t : ThreadSt) :
    ¬ Relation.TransGen (waits_for (2 ^ k)) t t := by
  intro htg
  obtain ⟨x, hx⟩ := transGen_exists_out htg
  have hblk : t.acquired < (region_ids (2 ^ k) t.offset t.length).length :=
    hx.2.2.1
  exact lt_irrefl _ (waits_for_trans_key_lt k hk t t htg hblk)

/-- Witness for C4: a concrete thread (request `(0, 2048)`, one region
acquired, blocked on the next) is not in a waits-for cycle with region size
`2^10`. -/
theorem c4_no_cyclic_wait_witness :
    ¬ Relation.TransGen (waits_for (2 ^ 10)) ⟨0, 2048, 1⟩ ⟨0, 2048, 1⟩ :=
  c4_no_cyclic_wait 10 (by norm_num) ⟨0, 2048, 1⟩

/-! ### Claim C6 -/

theorem lock_regions_ne_invalid (ids : List Nat) (t : Table) :
    lock_regions t ids ≠ .error .invalid := by
  induction ids generalizing t with
  | nil => simp [lock_regions]
  | cons id rest ih =>
      rw [lock_regions]
      split
      · exact ih _
      · simp

theorem unlock_regions_ne_invalid (ids : List Nat) (t : Table) :
    unlock_regions t ids ≠ .error .invalid := by
  induction ids generalizing t with
  | nil => simp [unlock_regions]
  | cons id rest ih =>
      rw [unlock_regions]
      split
      · simp
      · split
        · simp
        · exact ih _

theorem try_lock_rollback_ne_invalid (ids : List Nat) (t : Table) :
    try_lock_rollback t ids ≠ .error .invalid := by
  induction ids generalizing t with
  | nil => simp [try_lock_rollback]
  | cons id rest ih =>
      rw [try_lock_rollback]
      split
      · simp
      · split
        · simp
        · exact ih _

theorem lock_shared_regions_ne_invalid (ids : List Nat) (t : Table) :
    lock_shared_regions t ids ≠ .error .invalid := by
  induction ids generalizing t with
  | nil => simp [lock_shared_regions]
  | cons id rest ih =>
      rw [lock_shared_regions]
      split
      · exact ih _
      · simp

theorem unlock_shared_regions_ne_invalid (ids : List Nat) (t : Table) :
    unlock_shared_regions t ids ≠ .error .invalid := by
  induction ids generalizing t with
  | nil => simp [unlock_shared_regions]
  | cons id rest ih =>
      rw [unlock_shared_regions]
      split
      · simp
      · split
        · simp
        · exact ih _

theorem try_lock_shared_rollback_ne_invalid (ids : List Nat) (t : Table) :
    try_lock_shared_rollback t ids ≠ .error .invalid := by
  induction ids generalizing t with
  | nil => simp [try_lock_shared_rollback]
  | cons id rest ih =>
      rw [try_lock_shared_rollback]
      split
      · simp
      · split
        · simp
        · exact ih _

theorem try_lock_ne_invalid_of_valid (rs : Nat) (t : Table) (o l : Nat)
    (hv : validate_parameters o l = true) :
    try_lock rs t o l ≠ .error .invalid := by
  rw [try_lock, if_pos hv]
  split
  · rename_i t1 acquired heq
    intro hc
    rcases hm : try_lock_rollback t1 acquired with e | t2
    · rw [hm] at hc
      simp only [Except.map] at hc
      cases hc
      exact try_lock_rollback_ne_invalid _ _ hm
    · rw [hm] at hc
      simp [Except.map] at hc
  · simp

theorem try_lock_shared_ne_invalid_of_valid (rs : Nat) (t : Table) (o l : Nat)
    (hv : validate_parameters o l = true) :
    try_lock_shared rs t o l ≠ .error .invalid := by
  rw [try_lock_shared, if_pos hv]
  split
  · rename_i t1 acquired heq
    intro hc
    rcases hm : try_lock_shared_rollback t1 acquired with e | t2
    · rw [hm] at hc
      simp only [Except.map] at hc
      cases hc
      exact try_lock_shared_rollback_ne_invalid _ _ hm
    · rw [hm] at hc
      simp [Except.map] at hc
  · simp

theorem validate_false_iff (o l : Nat) (ho : o < W) (hl : l < W) :
    validate_parameters o l = false ↔ (l = 0 ∨ W ≤ o + l) := by
  rw [← Bool.not_eq_true, validate_iff o l ho hl]
  constructor
  · intro h
    by_contra hc
    push_neg at hc
    exact h ⟨Nat.pos_of_ne_zero hc.1, hc.2⟩
  · rintro (h | h) ⟨h1, h2⟩
    · omega
    · omega

/-- Claim C6: every public entry point (`lock`, `try_lock`, `unlock` and the
shared variants) hits the fatal `validate_parameters` assert exactly when
`length == 0` or `offset + length` overflows `uint64_t` (`W ≤ o + l`); the
check runs before the region iteration, so rejection is uniform in the
table `t` — no region is created, locked or refcounted first — and any
other `(offset, length)` passes validation. -/
theorem c6_validation_characterization (rs : Nat) (t : Table) (o l : Nat)
    (ho : o < W) (hl : l < W) :
    (lock rs t o l = .error .invalid ↔ (l = 0 ∨ W ≤ o + l)) ∧
    (try_lock rs t o l = .error .invalid ↔ (l = 0 ∨ W ≤ o + l)) ∧
    (unlock rs t o l = .error .invalid ↔ (l = 0 ∨ W ≤ o + l)) ∧
    (lock_shared rs t o l = .error .invalid ↔ (l = 0 ∨ W ≤ o + l)) ∧
    (try_lock_shared rs t o l = .error .invalid ↔ (l = 0 ∨ W ≤ o + l)) ∧
    (unlock_shared rs t o l = .error .invalid ↔ (l = 0 ∨ W ≤ o + l)) := by
  have hval := validate_false_iff o l ho hl
  rcases hb : validate_parameters o l with _ | _
  · have hcond : l = 0 ∨ W ≤ o + l := hval.mp hb
    refine ⟨?_, ?_, ?_, ?_, ?_, ?_⟩ <;>
      simp [lock, try_lock, unlock, lock_shared, try_lock_shared, unlock_shared,
        hb, hcond]
  · have hcond : ¬ (l = 0 ∨ W ≤ o + l) := by
      intro hc
      rw [hval.mpr hc] at hb
      cases hb
    refine ⟨?_, ?_, ?_, ?_, ?_, ?_⟩
    · rw [lock, if_pos hb]
      simp only [hcond, iff_false]
      exact lock_regions_ne_invalid _ _
    · simp only [hcond, iff_false]
      exact try_lock_ne_invalid_of_valid rs t o l hb
    · rw [unlock, if_pos hb]
      simp only [hcond, iff_false]
      exact unlock_regions_ne_invalid _ _
    · rw [lock_shared, if_pos hb]
      simp only [hcond, iff_false]
      exact lock_shared_regions_ne_invalid _ _
    · simp only [hcond, iff_false]
      exact try_lock_shared_ne_invalid_of_valid rs t o l hb
    · rw [unlock_shared, if_pos hb]
      simp only [hcond, iff_false]
      exact unlock_shared_regions_ne_invalid _ _

/-- Witness for C6 at `region_size 1024`, empty table, request `(0, 0)`
(zero length): every entry point rejects it as invalid. -/
theorem c6_validation_characterization_witness :
    lock 1024 [] 0 0 = .error .invalid :=
  (c6_validation_characterization 1024 [] 0 0 (Nat.two_pow_pos 64)
    (Nat.two_pow_pos 64)).1.mpr (Or.inl rfl)

/-! ### Claim C7 -/

theorem Inv.update {t : Table} (hInv : Inv t) (id : Nat) (r : Region)
    (hr : 0 < r.refcount) : Inv (updateRegion t id r) := by
  intro p hp
  obtain ⟨q, hq, hfq⟩ := List.mem_map.mp hp
  by_cases h : q.1 = id
  · rw [if_pos h] at hfq
    cases hfq
    exact hr
  · rw [if_neg h] at hfq
    cases hfq
    exact hInv _ hq

theorem Inv.append_single {t : Table} (hInv : Inv t) (id : Nat) (r : Region)
    (hr : 0 < r.refcount) : Inv (t ++ [(id, r)]) := by
  intro p hp
  rcases List.mem_append.mp hp with h | h
  · exact hInv p h
  · rw [List.mem_singleton] at h
    cases h
    exact hr

theorem Inv.erase {t : Table} (hInv : Inv t) (id : Nat) :
    Inv (eraseRegion t id) := by
  intro p hp
  exact hInv p (List.mem_of_mem_filter hp)

theorem get_and_lock_region_inv (t : Table) (id : Nat) (hInv : Inv t) :
    Inv (get_and_lock_region t id).1 ∧
    0 < (get_and_lock_region t id).2.refcount := by
  rw [get_and_lock_region]
  split
  · exact ⟨hInv.update id _ (Nat.succ_pos _), Nat.succ_pos _⟩
  · exact ⟨hInv.append_single id _ Nat.one_pos, Nat.one_pos⟩

theorem get_locked_region_eq (t : Table) (id : Nat) (r : Region)
    (h : get_locked_region t id = some r) :
    findRegion t id = some r ∧ 0 < r.refcount := by
  rw [get_locked_region] at h
  split at h
  · cases h
  · rename_i q hfq
    split at h
    · cases h
    · rename_i hz
      cases h
      exact ⟨hfq, Nat.pos_of_ne_zero hz⟩

theorem unlock_region_inv (t : Table) (id : Nat) (t2 : Table) (hInv : Inv t)
    (h : unlock_region t id = some t2) : Inv t2 := by
  rw [unlock_region] at h
  split at h
  · cases h
  · rename_i r hf
    split at h
    · cases h
      exact hInv.erase id
    · rename_i hz
      cases h
      exact hInv.update id _ (Nat.pos_of_ne_zero hz)

theorem lock_regions_inv (ids : List Nat) (t t2 : Table) (hInv : Inv t)
    (h : lock_regions t ids = .ok t2) : Inv t2 := by
  induction ids generalizing t with
  | nil =>
      rw [lock_regions] at h
      cases h
      exact hInv
  | cons id rest ih =>
      rw [lock_regions] at h
      split at h
      · have hg := get_and_lock_region_inv t id hInv
        exact ih _ (hg.1.update id
          { (get_and_lock_region t id).2 with excl := true } hg.2) h
      · cases h

theorem lock_shared_regions_inv (ids : List Nat) (t t2 : Table) (hInv : Inv t)
    (h : lock_shared_regions t ids = .ok t2) : Inv t2 := by
  induction ids generalizing t with
  | nil =>
      rw [lock_shared_regions] at h
      cases h
      exact hInv
  | cons id rest ih =>
      rw [lock_shared_regions] at h
      split at h
      · have hg := get_and_lock_region_inv t id hInv
        exact ih _ (hg.1.update id
          { (get_and_lock_region t id).2 with
              sharedCount := (get_and_lock_region t id).2.sharedCount + 1 } hg.2) h
      · cases h

theorem unlock_regions_inv (ids : List Nat) (t t2 : Table) (hInv : Inv t)
    (h : unlock_regions t ids = .ok t2) : Inv t2 := by
  induction ids generalizing t with
  | nil =>
      rw [unlock_regions] at h
      cases h
      exact hInv
  | cons id rest ih =>
      rw [unlock_regions] at h
      split at h
      · cases h
      · rename_i r hg
        split at h
        · cases h
        · rename_i t3 hu
          exact ih _ (unlock_region_inv _ _ _
            (hInv.update id { r with excl := false }
              (get_locked_region_eq t id r hg).2) hu) h

theorem unlock_shared_regions_inv (ids : List Nat) (t t2 : Table) (hInv : Inv t)
    (h : unlock_shared_regions t ids = .ok t2) : Inv t2 := by
  induction ids generalizing t with
  | nil =>
      rw [unlock_shared_regions] at h
      cases h
      exact hInv
  | cons id rest ih =>
      rw [unlock_shared_regions] at h
      split at h
      · cases h
      · rename_i r hg
        split at h
        · cases h
        · rename_i t3 hu
          exact ih _ (unlock_region_inv _ _ _
            (hInv.update id { r with sharedCount := r.sharedCount - 1 }
              (get_locked_region_eq t id r hg).2) hu) h

theorem try_lock_rollback_inv (ids : List Nat) (t t2 : Table) (hInv : Inv t)
    (h : try_lock_rollback t ids = .ok t2) : Inv t2 := by
  induction ids generalizing t with
  | nil =>
      rw [try_lock_rollback] at h
      cases h
      exact hInv
  | cons id rest ih =>
      rw [try_lock_rollback] at h
      split at h
      · cases h
      · rename_i r hg
        split at h
        · cases h
        · rename_i t3 hu
          exact ih _ (unlock_region_inv _ _ _
            (hInv.update id { r with excl := false }
              (get_locked_region_eq t id r hg).2) hu) h

theorem try_lock_shared_rollback_inv (ids : List Nat) (t t2 : Table)
    (hInv : Inv t) (h : try_lock_shared_rollback t ids = .ok t2) : Inv t2 := by
  induction ids generalizing t with
  | nil =>
      rw [try_lock_shared_rollback] at h
      cases h
      exact hInv
  | cons id rest ih =>
      rw [try_lock_shared_rollback] at h
      split at h
      · cases h
      · rename_i r hg
        split at h
        · cases h
        · rename_i t3 hu
          exact ih _ (unlock_region_inv _ _ _
            (hInv.update id { r with sharedCount := r.sharedCount - 1 }
              (get_locked_region_eq t id r hg).2) hu) h

theorem try_lock_walk_inv (ids : List Nat) (t : Table) (acc : List Nat)
    (hInv : Inv t) : Inv (try_lock_walk t acc ids).2.1 := by
  induction ids generalizing t acc with
  | nil =>
      rw [try_lock_walk]
      exact hInv
  | cons id rest ih =>
      rw [try_lock_walk]
      have hg := get_and_lock_region_inv t id hInv
      split
      · exact ih _ _ (hg.1.update id
          { (get_and_lock_region t id).2 with excl := true } hg.2)
      · exact hg.1

theorem try_lock_shared_walk_inv (ids : List Nat) (t : Table) (acc : List Nat)
    (hInv : Inv t) : Inv (try_lock_shared_walk t acc ids).2.1 := by
  induction ids generalizing t acc with
  | nil =>
      rw [try_lock_shared_walk]
      exact hInv
  | cons id rest ih =>
      rw [try_lock_shared_walk]
      have hg := get_and_lock_region_inv t id hInv
      split
      · exact ih _ _ (hg.1.update id
          { (get_and_lock_region t id).2 with
              sharedCount := (get_and_lock_region t id).2.sharedCount + 1 } hg.2)
      · exact hg.1

/-- Claim C7: the table invariant "an entry is present iff its refcount is
positive" (`Inv`, stating every present entry has refcount > 0; absent
entries have no refcount) is preserved by every public operation. It holds
because `get_and_lock_region` creates an entry only together with the
increment that takes it to refcount 1, and `unlock_region` erases an entry
exactly when its decrement reaches 0. -/
theorem c7_refcount_invariant (rs o l : Nat) (t : Table) (hInv : Inv t) :
    (∀ t2, lock rs t o l = .ok t2 → Inv t2) ∧
    (∀ b t2, try_lock rs t o l = .ok (b, t2) → Inv t2) ∧
    (∀ t2, unlock rs t o l = .ok t2 → Inv t2) ∧
    (∀ t2, lock_shared rs t o l = .ok t2 → Inv t2) ∧
    (∀ b t2, try_lock_shared rs t o l = .ok (b, t2) → Inv t2) ∧
    (∀ t2, unlock_shared rs t o l = .ok t2 → Inv t2) := by
  refine ⟨?_, ?_, ?_, ?_, ?_, ?_⟩
  · intro t2 h
    rw [lock] at h
    split at h
    · exact lock_regions_inv _ _ _ hInv h
    · cases h
  · intro b t2 h
    rw [try_lock] at h
    split at h
    · split at h
      · rename_i t1 acquired heq
        have hw : Inv t1 := by
          have := try_lock_walk_inv (region_ids rs o l) t [] hInv
          rw [heq] at this
          exact this
        rcases hm : try_lock_rollback t1 acquired with e | t3
        · rw [hm] at h
          simp [Except.map] at h
        · rw [hm] at h
          simp only [Except.map] at h
          cases h
          exact try_lock_rollback_inv _ _ _ hw hm
      · rename_i t1 acquired heq
        cases h
        have := try_lock_walk_inv (region_ids rs o l) t [] hInv
        rw [heq] at this
        exact this
    · cases h
  · intro t2 h
    rw [unlock] at h
    split at h
    · exact unlock_regions_inv _ _ _ hInv h
    · cases h
  · intro t2 h
    rw [lock_shared] at h
    split at h
    · exact lock_shared_regions_inv _ _ _ hInv h
    · cases h
  · intro b t2 h
    rw [try_lock_shared] at h
    split at h
    · split at h
      · rename_i t1 acquired heq
        have hw : Inv t1 := by
          have := try_lock_shared_walk_inv (region_ids rs o l) t [] hInv
          rw [heq] at this
          exact this
        rcases hm : try_lock_shared_rollback t1 acquired with e | t3
        · rw [hm] at h
          simp [Except.map] at h
        · rw [hm] at h
          simp only [Except.map] at h
          cases h
          exact try_lock_shared_rollback_inv _ _ _ hw hm
      · rename_i t1 acquired heq
        cases h
        have := try_lock_shared_walk_inv (region_ids rs o l) t [] hInv
        rw [heq] at this
        exact this
    · cases h
  · intro t2 h
    rw [unlock_shared] at h
    split at h
    · exact unlock_shared_regions_inv _ _ _ hInv h
    · cases h

/-- Witness for C7: the table reached by `lock(0, 2048)` from the empty
table (which trivially satisfies the invariant) satisfies the invariant. -/
theorem c7_refcount_invariant_witness :
    Inv [(0, ⟨1, true, 0⟩), (1, ⟨1, true, 0⟩)] :=
  (c7_refcount_invariant 1024 0 2048 [] (by intro p hp; cases hp)).1
    [(0, ⟨1, true, 0⟩), (1, ⟨1, true, 0⟩)] (by decide)

/-! ### Claim C8 -/

theorem findRegion_cons_self (id : Nat) (r : Region) (u : Table) :
    findRegion ((id, r) :: u) id = some r := by
  simp [findRegion]

theorem findRegion_append_left_none (t u : Table) (id : Nat)
    (h : findRegion t id = none) : findRegion (t ++ u) id = findRegion u id := by
  induction t with
  | nil => rfl
  | cons p rest ih =>
      obtain ⟨i, q⟩ := p
      rw [findRegion] at h
      by_cases hi : i = id
      · rw [if_pos hi] at h
        cases h
      · rw [if_neg hi] at h
        rw [List.cons_append, findRegion, if_neg hi]
        exact ih h

theorem findRegion_map_none (ids : List Nat) (g : Nat → Region) (id : Nat)
    (h : id ∉ ids) : findRegion (ids.map (fun i => (i, g i))) id = none := by
  induction ids with
  | nil => rfl
  | cons i rest ih =>
      rw [List.map_cons, findRegion,
        if_neg (by rintro rfl; exact h (List.mem_cons_self _ _))]
      exact ih (fun hc => h (List.mem_cons_of_mem _ hc))

theorem updateRegion_of_find_none (t : Table) (id : Nat) (r : Region)
    (h : findRegion t id = none) : updateRegion t id r = t := by
  induction t with
  | nil => rfl
  | cons p rest ih =>
      obtain ⟨i, q⟩ := p
      rw [findRegion] at h
      by_cases hi : i = id
      · rw [if_pos hi] at h
        cases h
      · rw [if_neg hi] at h
        rw [updateRegion, List.map_cons]
        rw [updateRegion] at ih
        rw [ih h]
        simp [hi]

theorem eraseRegion_of_find_none (t : Table) (id : Nat)
    (h : findRegion t id = none) : eraseRegion t id = t := by
  induction t with
  | nil => rfl
  | cons p rest ih =>
      obtain ⟨i, q⟩ := p
      rw [findRegion] at h
      by_cases hi : i = id
      · rw [if_pos hi] at h
        cases h
      · rw [if_neg hi] at h
        rw [eraseRegion, List.filter_cons]
        rw [eraseRegion] at ih
        simp only [hi, bne_iff_ne, ne_eq, not_false_eq_true, if_true]
        rw [ih h]

theorem lock_regions_cons_fresh_eq (t : Table) (id : Nat) (rest : List Nat)
    (hid : findRegion t id = none) :
    lock_regions t (id :: rest)
      = lock_regions (updateRegion (t ++ [(id, ⟨1, false, 0⟩)]) id ⟨1, true, 0⟩)
          rest := by
  simp [lock_regions, get_and_lock_region, hid]

theorem unlock_regions_cons_eq (t : Table) (id : Nat) (rest : List Nat)
    (r : Region) (hg : get_locked_region t id = some r) (t2 : Table)
    (hu : unlock_region (updateRegion t id { r with excl := false }) id
      = some t2) :
    unlock_regions t (id :: rest) = unlock_regions t2 rest := by
  simp [unlock_regions, hg, hu]

theorem try_lock_walk_cons_fresh_eq (t : Table) (id : Nat) (rest : List Nat)
    (acc : List Nat) (hid : findRegion t id = none) :
    try_lock_walk t acc (id :: rest)
      = try_lock_walk (updateRegion (t ++ [(id, ⟨1, false, 0⟩)]) id ⟨1, true, 0⟩)
          (acc ++ [id]) rest := by
  simp [try_lock_walk, get_and_lock_region, hid]

theorem update_append_singleton_fresh (t : Table) (id : Nat) (r r2 : Region)
    (hid : findRegion t id = none) :
    updateRegion (t ++ [(id, r)]) id r2 = t ++ [(id, r2)] := by
  rw [updateRegion, List.map_append, ← updateRegion, ← updateRegion,
    updateRegion_of_find_none t id _ hid]
  simp [updateRegion]

theorem lock_regions_fresh (ids : List Nat) (t : Table) (hnd : ids.Nodup)
    (hfresh : ∀ id ∈ ids, findRegion t id = none) :
    lock_regions t ids = .ok (t ++ ids.map (fun i => (i, ⟨1, true, 0⟩))) := by
  induction ids generalizing t with
  | nil => simp [lock_regions]
  | cons id rest ih =>
      have hid : findRegion t id = none := hfresh id (List.mem_cons_self _ _)
      have hnotmem : id ∉ rest := (List.nodup_cons.mp hnd).1
      rw [lock_regions_cons_fresh_eq t id rest hid,
        update_append_singleton_fresh t id _ _ hid]
      have hfresh2 : ∀ j ∈ rest, findRegion (t ++ [(id, ⟨1, true, 0⟩)]) j = none := by
        intro j hj
        rw [findRegion_append_left_none _ _ _ (hfresh j (List.mem_cons_of_mem _ hj))]
        rw [findRegion, if_neg (by rintro rfl; exact hnotmem hj)]
        rfl
      rw [ih _ (List.nodup_cons.mp hnd).2 hfresh2]
      simp

theorem unlock_regions_locked_map (ids : List Nat) (hnd : ids.Nodup) :
    unlock_regions (ids.map (fun i => (i, ⟨1, true, 0⟩))) ids = .ok [] := by
  induction ids with
  | nil => rfl
  | cons id rest ih =>
      have hnotmem : id ∉ rest := (List.nodup_cons.mp hnd).1
      have hfind : findRegion (rest.map (fun i => (i, (⟨1, true, 0⟩ : Region)))) id
          = none := findRegion_map_none rest _ id hnotmem
      have hg : get_locked_region ((id, (⟨1, true, 0⟩ : Region)) ::
          rest.map (fun i => (i, ⟨1, true, 0⟩))) id = some ⟨1, true, 0⟩ := by
        simp [get_locked_region, findRegion]
      have hupd : updateRegion ((id, (⟨1, true, 0⟩ : Region)) ::
          rest.map (fun i => (i, ⟨1, true, 0⟩))) id ⟨1, false, 0⟩
          = (id, (⟨1, false, 0⟩ : Region)) :: rest.map (fun i => (i, ⟨1, true, 0⟩)) := by
        rw [updateRegion, List.map_cons, ← updateRegion,
          updateRegion_of_find_none _ id _ hfind]
        simp
      have hu : unlock_region (updateRegion ((id, (⟨1, true, 0⟩ : Region)) ::
          rest.map (fun i => (i, ⟨1, true, 0⟩))) id ⟨1, false, 0⟩) id
          = some (rest.map (fun i => (i, ⟨1, true, 0⟩))) := by
        rw [hupd]
        simp only [unlock_region, findRegion_cons_self]
        rw [if_pos trivial]
        rw [eraseRegion, List.filter_cons, ← eraseRegion]
        simp only [bne_self_eq_false, Bool.false_eq_true, if_false]
        rw [eraseRegion_of_find_none _ id hfind]
      rw [List.map_cons, unlock_regions_cons_eq _ id rest ⟨1, true, 0⟩ hg _ hu]
      exact ih (List.nodup_cons.mp hnd).2

theorem try_lock_walk_fresh (ids : List Nat) (t : Table) (acc : List Nat)
    (hnd : ids.Nodup) (hfresh : ∀ id ∈ ids, findRegion t id = none) :
    try_lock_walk t acc ids
      = (false, t ++ ids.map (fun i => (i, ⟨1, true, 0⟩)), acc ++ ids) := by
  induction ids generalizing t acc with
  | nil => simp [try_lock_walk]
  | cons id rest ih =>
      have hid : findRegion t id = none := hfresh id (List.mem_cons_self _ _)
      have hnotmem : id ∉ rest := (List.nodup_cons.mp hnd).1
      rw [try_lock_walk_cons_fresh_eq t id rest acc hid,
        update_append_singleton_fresh t id _ _ hid]
      have hfresh2 : ∀ j ∈ rest, findRegion (t ++ [(id, ⟨1, true, 0⟩)]) j = none := by
        intro j hj
        rw [findRegion_append_left_none _ _ _ (hfresh j (List.mem_cons_of_mem _ hj))]
        rw [findRegion, if_neg (by rintro rfl; exact hnotmem hj)]
        rfl
      rw [ih _ _ (List.nodup_cons.mp hnd).2 hfresh2]
      simp

/-- Claim C8: starting from the empty region table, a balanced
acquire/release pair returns the table to empty: `lock(o, l)` produces
exactly the covered regions (each refcount 1, exclusively held) and the
matching `unlock(o, l)` empties the table again; likewise `try_lock(o, l)`
from empty succeeds with the same table, and the matching `unlock`
empties it. -/
theorem c8_balanced_sequence_empties_table (k o l : Nat) (hk : k ≤ 64)
    (ho : o < W) (hl : l < W) (hval : validate_parameters o l = true) :
    lock (2 ^ k) [] o l = .ok (locked_table (2 ^ k) o l) ∧
    unlock (2 ^ k) (locked_table (2 ^ k) o l) o l = .ok [] ∧
    try_lock (2 ^ k) [] o l = .ok (true, locked_table (2 ^ k) o l) := by
  have hol : o + l ≤ W := le_of_lt ((validate_iff o l ho hl).mp hval).2
  have hnd : (region_ids (2 ^ k) o l).Nodup := by
    rw [region_ids_eq k o l hk ho hl hol]
    exact List.nodup_range' _ _
  refine ⟨?_, ?_, ?_⟩
  · rw [lock, if_pos hval]
    have h := lock_regions_fresh (region_ids (2 ^ k) o l) [] hnd
      (fun id _ => rfl)
    rw [h]
    rfl
  · rw [unlock, if_pos hval]
    exact unlock_regions_locked_map _ hnd
  · rw [try_lock, if_pos hval]
    rw [try_lock_walk_fresh (region_ids (2 ^ k) o l) [] [] hnd (fun id _ => rfl)]
    rfl

/-- Witness for C8 at `region_size 2^10`, request `(0, 2048)`. -/
theorem c8_balanced_sequence_empties_table_witness :
    lock (2 ^ 10) [] 0 2048 = .ok (locked_table (2 ^ 10) 0 2048) ∧
    unlock (2 ^ 10) (locked_table (2 ^ 10) 0 2048) 0 2048 = .ok [] ∧
    try_lock (2 ^ 10) [] 0 2048 = .ok (true, locked_table (2 ^ 10) 0 2048) :=
  c8_balanced_sequence_empties_table 10 0 2048 (by norm_num) (by decide)
    (by decide) (by decide)

/-! ### Claim C10 -/

theorem findRegion_update_self (t : Table) (id : Nat) (r q : Region)
    (h : findRegion t id = some q) :
    findRegion (updateRegion t id r) id = some r := by
  induction t with
  | nil => cases h
  | cons p rest ih =>
      obtain ⟨i, q2⟩ := p
      rw [findRegion] at h
      rw [updateRegion, List.map_cons, ← updateRegion]
      by_cases hi : i = id
      · rw [if_pos hi, findRegion, if_pos rfl]
      · rw [if_neg hi] at h
        rw [if_neg hi, findRegion, if_neg hi]
        exact ih h

theorem findRegion_update_ne (t : Table) (id j : Nat) (r : Region)
    (hj : j ≠ id) : findRegion (updateRegion t id r) j = findRegion t j := by
  induction t with
  | nil => rfl
  | cons p rest ih =>
      obtain ⟨i, q⟩ := p
      rw [updateRegion, List.map_cons, ← updateRegion]
      by_cases hi : i = id
      · rw [if_pos hi, findRegion, if_neg (fun hc => hj hc.symm), findRegion,
          if_neg (by rw [hi]; exact fun hc => hj hc.symm)]
        exact ih
      · rw [if_neg hi, findRegion, findRegion]
        by_cases hij : i = j
        · rw [if_pos hij, if_pos hij]
        · rw [if_neg hij, if_neg hij]
          exact ih

theorem findRegion_erase_ne (t : Table) (id j : Nat) (hj : j ≠ id) :
    findRegion (eraseRegion t id) j = findRegion t j := by
  induction t with
  | nil => rfl
  | cons p rest ih =>
      obtain ⟨i, q⟩ := p
      rw [eraseRegion, List.filter_cons, ← eraseRegion]
      by_cases hi : i = id
      · simp only [hi, bne_self_eq_false, Bool.false_eq_true, if_false]
        rw [findRegion, if_neg (fun hc => hj hc.symm)]
        exact ih
      · simp only [bne_iff_ne, ne_eq, hi, not_false_eq_true, if_true]
        rw [findRegion, findRegion]
        by_cases hij : i = j
        · rw [if_pos hij, if_pos hij]
        · rw [if_neg hij, if_neg hij]
          exact ih

theorem get_locked_region_congr (t u : Table) (j : Nat)
    (h : findRegion t j = findRegion u j) :
    get_locked_region t j = get_locked_region u j := by
  rw [get_locked_region, get_locked_region, h]

theorem unlock_region_some_of_find (t : Table) (id : Nat) (q : Region)
    (h : findRegion t id = some q) :
    unlock_region t id
      = some (if q.refcount - 1 = 0 then eraseRegion t id
              else updateRegion t id { q with refcount := q.refcount - 1 }) := by
  simp only [unlock_region, h]
  split
  · rfl
  · rfl

theorem unlock_region_find_ne (t t2 : Table) (id j : Nat) (hj : j ≠ id)
    (h : unlock_region t id = some t2) :
    findRegion t2 j = findRegion t j := by
  rw [unlock_region] at h
  split at h
  · cases h
  · rename_i r hf
    split at h
    · cases h
      exact findRegion_erase_ne t id j hj
    · cases h
      exact findRegion_update_ne t id j _ hj

theorem unlock_regions_error_iff (ids : List Nat) (t : Table) (hnd : ids.Nodup) :
    unlock_regions t ids = .error .assertFail ↔
      ∃ id ∈ ids, get_locked_region t id = none := by
  induction ids generalizing t with
  | nil => simp [unlock_regions]
  | cons id rest ih =>
      have hnotmem : id ∉ rest := (List.nodup_cons.mp hnd).1
      rcases hg : get_locked_region t id with _ | r
      · simp only [unlock_regions, hg]
        constructor
        · intro _
          exact ⟨id, List.mem_cons_self _ _, hg⟩
        · intro _
          trivial
      · have hfind := (get_locked_region_eq t id r hg).1
        have hfind2 : findRegion (updateRegion t id { r with excl := false }) id
            = some { r with excl := false } :=
          findRegion_update_self t id _ r hfind
        have hu := unlock_region_some_of_find _ id _ hfind2
        rw [unlock_regions_cons_eq t id rest r hg _ hu]
        rw [ih _ (List.nodup_cons.mp hnd).2]
        have hstab : ∀ j ∈ rest, get_locked_region
            (if ({ r with excl := false } : Region).refcount - 1 = 0 then
              eraseRegion (updateRegion t id { r with excl := false }) id
            else updateRegion (updateRegion t id { r with excl := false }) id
              { ({ r with excl := false } : Region) with
                  refcount := ({ r with excl := false } : Region).refcount - 1 }) j
            = get_locked_region t j := by
          intro j hj
          have hjid : j ≠ id := fun hc => hnotmem (hc ▸ hj)
          apply get_locked_region_congr
          split
          · rw [findRegion_erase_ne _ id j hjid, findRegion_update_ne t id j _ hjid]
          · rw [findRegion_update_ne _ id j _ hjid, findRegion_update_ne t id j _ hjid]
        constructor
        · rintro ⟨j, hj, hnone⟩
          refine ⟨j, List.mem_cons_of_mem _ hj, ?_⟩
          rw [← hstab j hj]
          exact hnone
        · rintro ⟨j, hj, hnone⟩
          rcases List.mem_cons.mp hj with rfl | hj2
          · rw [hg] at hnone
            cases hnone
          · refine ⟨j, hj2, ?_⟩
            rw [hstab j hj2]
            exact hnone

theorem unlock_shared_regions_cons_eq (t : Table) (id : Nat) (rest : List Nat)
    (r : Region) (hg : get_locked_region t id = some r) (t2 : Table)
    (hu : unlock_region
      (updateRegion t id { r with sharedCount := r.sharedCount - 1 }) id
      = some t2) :
    unlock_shared_regions t (id :: rest) = unlock_shared_regions t2 rest := by
  simp [unlock_shared_regions, hg, hu]

theorem unlock_shared_regions_error_iff (ids : List Nat) (t : Table)
    (hnd : ids.Nodup) :
    unlock_shared_regions t ids = .error .assertFail ↔
      ∃ id ∈ ids, get_locked_region t id = none := by
  induction ids generalizing t with
  | nil => simp [unlock_shared_regions]
  | cons id rest ih =>
      have hnotmem : id ∉ rest := (List.nodup_cons.mp hnd).1
      rcases hg : get_locked_region t id with _ | r
      · simp only [unlock_shared_regions, hg]
        constructor
        · intro _
          exact ⟨id, List.mem_cons_self _ _, hg⟩
        · intro _
          trivial
      · have hfind := (get_locked_region_eq t id r hg).1
        have hfind2 : findRegion
            (updateRegion t id { r with sharedCount := r.sharedCount - 1 }) id
            = some { r with sharedCount := r.sharedCount - 1 } :=
          findRegion_update_self t id _ r hfind
        have hu := unlock_region_some_of_find _ id _ hfind2
        rw [unlock_shared_regions_cons_eq t id rest r hg _ hu]
        rw [ih _ (List.nodup_cons.mp hnd).2]
        have hstab : ∀ j ∈ rest, get_locked_region
            (if ({ r with sharedCount := r.sharedCount - 1 } : Region).refcount - 1
                = 0 then
              eraseRegion
                (updateRegion t id { r with sharedCount := r.sharedCount - 1 }) id
            else updateRegion
              (updateRegion t id { r with sharedCount := r.sharedCount - 1 }) id
              { ({ r with sharedCount := r.sharedCount - 1 } : Region) with
                  refcount :=
                    ({ r with sharedCount := r.sharedCount - 1 } : Region).refcount
                      - 1 }) j
            = get_locked_region t j := by
          intro j hj
          have hjid : j ≠ id := fun hc => hnotmem (hc ▸ hj)
          apply get_locked_region_congr
          split
          · rw [findRegion_erase_ne _ id j hjid, findRegion_update_ne t id j _ hjid]
          · rw [findRegion_update_ne _ id j _ hjid, findRegion_update_ne t id j _ hjid]
        constructor
        · rintro ⟨j, hj, hnone⟩
          refine ⟨j, List.mem_cons_of_mem _ hj, ?_⟩
          rw [← hstab j hj]
          exact hnone
        · rintro ⟨j, hj, hnone⟩
          rcases List.mem_cons.mp hj with rfl | hj2
          · rw [hg] at hnone
            cases hnone
          · refine ⟨j, hj2, ?_⟩
            rw [hstab j hj2]
            exact hnone

/-- Claim C10 counterexample: with `region_size = 1024`, after
`lock(0, 2048)` (regions 0 and 1 held), the mismatched `unlock(0, 1024)` —
a range that was never locked with these exact arguments — does NOT abort:
every region it covers (only region 0) is present with positive refcount, so
both asserts pass and the call completes, releasing region 0. -/
theorem c10_mismatched_unlock_not_detected :
    lock 1024 [] 0 2048 = .ok [(0, ⟨1, true, 0⟩), (1, ⟨1, true, 0⟩)] ∧
    unlock 1024 [(0, ⟨1, true, 0⟩), (1, ⟨1, true, 0⟩)] 0 1024
      = .ok [(1, ⟨1, true, 0⟩)] := by
  constructor <;> decide

/-- Claim C10 as amended: for an accepted request, `unlock(offset, length)`
and `unlock_shared(offset, length)` abort (the `get_locked_region` assert)
exactly when some covered region id is absent from the table or has
refcount 0. In particular unlocking a range none of whose regions are held
aborts, but a mismatched range whose covered regions are all present —
e.g. a subrange of a held range — is not detected and completes normally. -/
theorem c10_unlock_abort_iff (k o l : Nat) (t : Table) (hk : k ≤ 64)
    (ho : o < W) (hl : l < W) (hval : validate_parameters o l = true) :
    (unlock (2 ^ k) t o l = .error .assertFail ↔
      ∃ id ∈ region_ids (2 ^ k) o l, get_locked_region t id = none) ∧
    (unlock_shared (2 ^ k) t o l = .error .assertFail ↔
      ∃ id ∈ region_ids (2 ^ k) o l, get_locked_region t id = none) := by
  have hol : o + l ≤ W := le_of_lt ((validate_iff o l ho hl).mp hval).2
  have hnd : (region_ids (2 ^ k) o l).Nodup := by
    rw [region_ids_eq k o l hk ho hl hol]
    exact List.nodup_range' _ _
  constructor
  · rw [unlock, if_pos hval]
    exact unlock_regions_error_iff _ t hnd
  · rw [unlock_shared, if_pos hval]
    exact unlock_shared_regions_error_iff _ t hnd

/-- Witness for C10 (amended): unlocking `(0, 1)` with an empty table —
a range not held at all — aborts, on the exclusive and the shared path. -/
theorem c10_unlock_abort_iff_witness :
    unlock (2 ^ 10) [] 0 1 = .error .assertFail ∧
    unlock_shared (2 ^ 10) [] 0 1 = .error .assertFail :=
  ⟨(c10_unlock_abort_iff 10 0 1 [] (by norm_num) (by decide) (by decide)
      (by decide)).1.mpr ⟨0, by decide, rfl⟩,
   (c10_unlock_abort_iff 10 0 1 [] (by norm_num) (by decide) (by decide)
      (by decide)).2.mpr ⟨0, by decide, rfl⟩⟩

end RangeLock
